import Mathlib

/-!
Verification development for the `couchcopy` repository (tolteck/couchcopy):
a tool to back up, load and restore CouchDB clusters.

The first part embeds the version-extraction logic of `setup.py`, the one
source file present.  The remaining parts model, from the specification, the
core backup/restore engine (archive store, document pipeline, restore
pipeline, client adapter) that the packaged `couchcopy` script implements.
-/

namespace Couchcopy

/-! ## Part 1: `setup.py` version extraction

`setup.py` computes the package version with

  version = [n.value.s for n in ast.parse(open(path).read()).body
             if isinstance(n, ast.Assign)
             and n.targets[0].id == '__version__'][0]

We embed the fragment of the Python AST this touches.  `ast.parse(...).body`
is the list of top-level statements; statement bodies of function and class
definitions are nested inside their own nodes and never appear in `.body`.
-/

/-- A Python literal constant (`ast.Constant`).  Its deprecated `.s`
accessor returns the stored value whatever its type. -/
inductive PyConst where
  | str (s : String)
  | int (n : Int)
  | bool (b : Bool)
  | noneConst
  deriving DecidableEq, Repr

/-- An assignment target.  Only `ast.Name` nodes have an `.id` attribute;
tuples, attributes and subscripts as targets do not. -/
inductive PyTarget where
  | name (id : String)
  | tupleTarget
  | attributeTarget
  | subscriptTarget
  deriving DecidableEq, Repr

/-- A Python expression, as far as `setup.py` inspects it.  Only constants
carry the `.s` accessor; every other expression node lacks it. -/
inductive PyExpr where
  | const (c : PyConst)
  | otherExpr
  deriving DecidableEq, Repr

/-- A top-level Python statement, as far as `setup.py` inspects it.
`assign` is `ast.Assign`; its grammar guarantees at least one target, which
we keep as `target1`.  Function and class definitions carry their nested
bodies, which the comprehension over `.body` never enters.  Everything else
(`ast.AnnAssign`, imports, expressions, ...) is `otherStmt`. -/
inductive PyStmt where
  | assign (target1 : PyTarget) (moreTargets : List PyTarget) (value : PyExpr)
  | functionDef (name : String) (body : List PyStmt)
  | classDef (name : String) (body : List PyStmt)
  | otherStmt

/-- A Python exception raised while evaluating the comprehension or its
final subscript. -/
inductive PyErr where
  | attributeError
  | indexError
  deriving DecidableEq, Repr

/-- One step of the comprehension
`[n.value.s for n in body if isinstance(n, ast.Assign) and n.targets[0].id == '__version__']`:
for each statement, the guard evaluates `n.targets[0].id` (raising
`AttributeError` when the first target is not a plain name), and for a
matching statement `n.value.s` is evaluated (raising `AttributeError` when
the value is not a constant). -/
def versionCandidates : List PyStmt → Except PyErr (List PyConst)
  | [] => Except.ok []
  | PyStmt.assign target1 _ value :: rest =>
      match target1 with
      | PyTarget.name id =>
          if id = "__version__" then
            match value with
            | PyExpr.const c =>
                match versionCandidates rest with
                | Except.ok cs => Except.ok (c :: cs)
                | Except.error e => Except.error e
            | PyExpr.otherExpr => Except.error PyErr.attributeError
          else versionCandidates rest
      | _ => Except.error PyErr.attributeError
  | _ :: rest => versionCandidates rest

/-- The computation of `version` in `setup.py`: the comprehension's result
subscripted at `[0]`, which raises `IndexError` on an empty list. -/
def setupVersion (body : List PyStmt) : Except PyErr PyConst :=
  match versionCandidates body with
  | Except.error e => Except.error e
  | Except.ok [] => Except.error PyErr.indexError
  | Except.ok (c :: _) => Except.ok c

/-- A top-level statement is a version assignment when it is an `ast.Assign`
whose first target is the plain name `__version__`. -/
def isVersionAssign : PyStmt → Bool
  | PyStmt.assign (PyTarget.name id) _ _ => id = "__version__"
  | _ => false

/-- A version assignment whose assigned value is a string constant. -/
def isVersionStrAssign : PyStmt → Bool
  | PyStmt.assign (PyTarget.name id) _ (PyExpr.const (PyConst.str _)) =>
      id = "__version__"
  | _ => false

/-- A statement is harmless for the comprehension's guard when it is either
not an `ast.Assign` or an `ast.Assign` whose first target is a plain name
(so `n.targets[0].id` cannot raise). -/
def guardSafe : PyStmt → Bool
  | PyStmt.assign target1 _ _ =>
      match target1 with
      | PyTarget.name _ => true
      | _ => false
  | _ => true

/-- Every version assignment in the list assigns a literal constant, so
`n.value.s` cannot raise on it. -/
def versionValuesConst : List PyStmt → Bool
  | [] => true
  | PyStmt.assign (PyTarget.name id) _ value :: rest =>
      (if id = "__version__" then
        match value with
        | PyExpr.const _ => true
        | PyExpr.otherExpr => false
       else true) && versionValuesConst rest
  | _ :: rest => versionValuesConst rest

/-- The value of the first top-level `ast.Assign` whose first target is
`__version__`, when it exists and carries a constant. -/
def firstVersionValue : List PyStmt → Option PyConst
  | [] => none
  | PyStmt.assign (PyTarget.name id) _ value :: rest =>
      if id = "__version__" then
        match value with
        | PyExpr.const c => some c
        | PyExpr.otherExpr => none
      else firstVersionValue rest
  | _ :: rest => firstVersionValue rest

theorem versionCandidates_tail (body : List PyStmt)
    (hsafe : ∀ stmt ∈ body, guardSafe stmt = true)
    (hconst : versionValuesConst body = true) :
    ∃ cs, versionCandidates body = Except.ok cs := by
  induction body with
  | nil => exact ⟨[], rfl⟩
  | cons stmt rest ih =>
    cases stmt with
    | assign target1 more value =>
      cases target1 with
      | name id =>
        by_cases hid : id = "__version__"
        · subst hid
          cases value with
          | const c0 =>
            simp only [versionValuesConst, if_pos rfl, Bool.true_and] at hconst
            obtain ⟨cs, hcs⟩ := ih (fun s hs => hsafe s (List.mem_cons_of_mem _ hs))
              hconst
            exact ⟨c0 :: cs, by simp [versionCandidates, hcs]⟩
          | otherExpr =>
            simp [versionValuesConst] at hconst
        · simp only [versionValuesConst, if_neg hid, Bool.true_and] at hconst
          obtain ⟨cs, hcs⟩ := ih (fun s hs => hsafe s (List.mem_cons_of_mem _ hs))
            hconst
          exact ⟨cs, by simp [versionCandidates, if_neg hid, hcs]⟩
      | tupleTarget =>
        have := hsafe _ (List.mem_cons_self _ _)
        simp [guardSafe] at this
      | attributeTarget =>
        have := hsafe _ (List.mem_cons_self _ _)
        simp [guardSafe] at this
      | subscriptTarget =>
        have := hsafe _ (List.mem_cons_self _ _)
        simp [guardSafe] at this
    | functionDef n b =>
      simp only [versionValuesConst] at hconst
      obtain ⟨cs, hcs⟩ := ih (fun s hs => hsafe s (List.mem_cons_of_mem _ hs)) hconst
      exact ⟨cs, by simp [versionCandidates, hcs]⟩
    | classDef n b =>
      simp only [versionValuesConst] at hconst
      obtain ⟨cs, hcs⟩ := ih (fun s hs => hsafe s (List.mem_cons_of_mem _ hs)) hconst
      exact ⟨cs, by simp [versionCandidates, hcs]⟩
    | otherStmt =>
      simp only [versionValuesConst] at hconst
      obtain ⟨cs, hcs⟩ := ih (fun s hs => hsafe s (List.mem_cons_of_mem _ hs)) hconst
      exact ⟨cs, by simp [versionCandidates, hcs]⟩

theorem versionCandidates_head (body : List PyStmt) (c : PyConst)
    (hsafe : ∀ stmt ∈ body, guardSafe stmt = true)
    (hconst : versionValuesConst body = true)
    (hfirst : firstVersionValue body = some c) :
    ∃ cs, versionCandidates body = Except.ok (c :: cs) := by
  induction body with
  | nil => simp [firstVersionValue] at hfirst
  | cons stmt rest ih =>
    cases stmt with
    | assign target1 more value =>
      cases target1 with
      | name id =>
        by_cases hid : id = "__version__"
        · subst hid
          cases value with
          | const c0 =>
            simp only [firstVersionValue, if_pos rfl] at hfirst
            cases hfirst
            simp only [versionValuesConst, if_pos rfl, Bool.true_and] at hconst
            obtain ⟨cs, hcs⟩ := versionCandidates_tail rest
              (fun s hs => hsafe s (List.mem_cons_of_mem _ hs)) hconst
            refine ⟨cs, ?_⟩
            simp [versionCandidates, hcs]
          | otherExpr =>
            simp [firstVersionValue] at hfirst
        · simp only [firstVersionValue, if_neg hid] at hfirst
          simp only [versionValuesConst, if_neg hid, Bool.true_and] at hconst
          obtain ⟨cs, hcs⟩ := ih (fun s hs => hsafe s (List.mem_cons_of_mem _ hs))
            hconst hfirst
          refine ⟨cs, ?_⟩
          simp [versionCandidates, if_neg hid, hcs]
      | tupleTarget =>
        have := hsafe _ (List.mem_cons_self _ _)
        simp [guardSafe] at this
      | attributeTarget =>
        have := hsafe _ (List.mem_cons_self _ _)
        simp [guardSafe] at this
      | subscriptTarget =>
        have := hsafe _ (List.mem_cons_self _ _)
        simp [guardSafe] at this
    | functionDef n b =>
      simp only [firstVersionValue] at hfirst
      simp only [versionValuesConst] at hconst
      obtain ⟨cs, hcs⟩ := ih (fun s hs => hsafe s (List.mem_cons_of_mem _ hs))
        hconst hfirst
      exact ⟨cs, by simp [versionCandidates, hcs]⟩
    | classDef n b =>
      simp only [firstVersionValue] at hfirst
      simp only [versionValuesConst] at hconst
      obtain ⟨cs, hcs⟩ := ih (fun s hs => hsafe s (List.mem_cons_of_mem _ hs))
        hconst hfirst
      exact ⟨cs, by simp [versionCandidates, hcs]⟩
    | otherStmt =>
      simp only [firstVersionValue] at hfirst
      simp only [versionValuesConst] at hconst
      obtain ⟨cs, hcs⟩ := ih (fun s hs => hsafe s (List.mem_cons_of_mem _ hs))
        hconst hfirst
      exact ⟨cs, by simp [versionCandidates, hcs]⟩

theorem versionCandidates_none (body : List PyStmt)
    (hnone : ∀ stmt ∈ body, isVersionAssign stmt = false) :
    versionCandidates body = Except.ok []
      ∨ versionCandidates body = Except.error PyErr.attributeError := by
  induction body with
  | nil => exact Or.inl rfl
  | cons stmt rest ih =>
    have hrest := ih (fun s hs => hnone s (List.mem_cons_of_mem _ hs))
    cases stmt with
    | assign target1 more value =>
      cases target1 with
      | name id =>
        have hh := hnone _ (List.mem_cons_self _ _)
        have hid : ¬ id = "__version__" := by
          simpa [isVersionAssign] using hh
        rcases hrest with h1 | h1
        · exact Or.inl (by simp [versionCandidates, if_neg hid, h1])
        · exact Or.inr (by simp [versionCandidates, if_neg hid, h1])
      | tupleTarget => exact Or.inr rfl
      | attributeTarget => exact Or.inr rfl
      | subscriptTarget => exact Or.inr rfl
    | functionDef n b =>
      rcases hrest with h1 | h1
      · exact Or.inl (by simp [versionCandidates, h1])
      · exact Or.inr (by simp [versionCandidates, h1])
    | classDef n b =>
      rcases hrest with h1 | h1
      · exact Or.inl (by simp [versionCandidates, h1])
      · exact Or.inr (by simp [versionCandidates, h1])
    | otherStmt =>
      rcases hrest with h1 | h1
      · exact Or.inl (by simp [versionCandidates, h1])
      · exact Or.inr (by simp [versionCandidates, h1])

/-- A module body that contains a top-level `__version__` string assignment
but makes `setup.py` crash before selecting it: the preceding tuple
assignment `a, b = 1` has no `.id` on its first target, so the
comprehension raises `AttributeError`. -/
def c9Body : List PyStmt :=
  [PyStmt.assign PyTarget.tupleTarget [] (PyExpr.const (PyConst.int 1)),
   PyStmt.assign (PyTarget.name "__version__") [] (PyExpr.const (PyConst.str "1.0.0"))]

/-- C9 fails as stated: this module body contains a top-level
`__version__` string assignment, yet `setup.py` does not select it — the
comprehension's guard evaluates `n.targets[0].id` on an earlier tuple
assignment and raises `AttributeError`, so no version is computed at all. -/
theorem setup_version_claim_cex :
    (∃ stmt ∈ c9Body, isVersionStrAssign stmt = true) ∧
    setupVersion c9Body = Except.error PyErr.attributeError := by
  constructor
  · exact ⟨PyStmt.assign (PyTarget.name "__version__") []
      (PyExpr.const (PyConst.str "1.0.0")), by simp [c9Body], by decide⟩
  · rfl

/-- **C9** (amended). When every top-level `ast.Assign` in the adjacent
`couchcopy` file has a plain name as its first target and every top-level
assignment to `__version__` assigns a literal constant, the first of which
is a string, `setup.py` computes exactly that first string as the package
version.  Assignments nested inside function or class bodies are never
considered: `body` may hold arbitrary `__version__` assignments inside
`functionDef`/`classDef` nodes without affecting the hypotheses or the
result (the witness exercises this). -/
theorem setup_version_first_toplevel (body : List PyStmt) (s : String)
    (hsafe : ∀ stmt ∈ body, guardSafe stmt = true)
    (hconst : versionValuesConst body = true)
    (hfirst : firstVersionValue body = some (PyConst.str s)) :
    setupVersion body = Except.ok (PyConst.str s) := by
  obtain ⟨cs, hcs⟩ := versionCandidates_head body (PyConst.str s) hsafe hconst hfirst
  simp [setupVersion, hcs]

/-- A module body with a `__version__` assignment hidden inside a function
body (ignored), then two top-level `__version__` assignments (the first in
source order wins). -/
def c9WitnessBody : List PyStmt :=
  [PyStmt.functionDef "get_version"
     [PyStmt.assign (PyTarget.name "__version__") []
        (PyExpr.const (PyConst.str "9.9.9"))],
   PyStmt.otherStmt,
   PyStmt.assign (PyTarget.name "__version__") []
     (PyExpr.const (PyConst.str "1.0.0")),
   PyStmt.assign (PyTarget.name "__version__") []
     (PyExpr.const (PyConst.str "2.0.0"))]

/-- Witness for the amended C9 at a concrete module body: the version
selected is the first top-level `__version__` string, not the nested one
and not the later one. -/
theorem setup_version_first_toplevel_witness :
    setupVersion c9WitnessBody = Except.ok (PyConst.str "1.0.0") :=
  setup_version_first_toplevel c9WitnessBody "1.0.0"
    (by decide) (by decide) (by decide)

/-- **C10**. When the adjacent `couchcopy` file has no top-level
`ast.Assign` whose first target is the name `__version__`, the version
computation in `setup.py` raises an exception — `IndexError` from
subscripting the empty candidate list (or `AttributeError` already raised
by the comprehension's guard, when some top-level assignment's first
target is not a plain name) — so `setuptools.setup` is never invoked and
no package is built with a missing or default version. -/
theorem setup_version_missing_raises (body : List PyStmt)
    (hnone : ∀ stmt ∈ body, isVersionAssign stmt = false) :
    setupVersion body = Except.error PyErr.indexError
      ∨ setupVersion body = Except.error PyErr.attributeError := by
  rcases versionCandidates_none body hnone with h | h
  · exact Or.inl (by simp [setupVersion, h])
  · exact Or.inr (by simp [setupVersion, h])

/-- A module body with assignments to other names, and a `__version__`
assignment only inside a function body. -/
def c10Body : List PyStmt :=
  [PyStmt.otherStmt,
   PyStmt.assign (PyTarget.name "version") []
     (PyExpr.const (PyConst.str "1.0.0")),
   PyStmt.functionDef "f"
     [PyStmt.assign (PyTarget.name "__version__") []
        (PyExpr.const (PyConst.str "1.0.0"))]]

/-- Witness for C10 at a concrete module body with no top-level
`__version__` assignment. -/
theorem setup_version_missing_raises_witness :
    setupVersion c10Body = Except.error PyErr.indexError
      ∨ setupVersion c10Body = Except.error PyErr.attributeError :=
  setup_version_missing_raises c10Body (by decide)

/-! ## Part 2: the core backup/restore engine

The packaged `couchcopy` script (declared in `setup.py` as
`scripts=['couchcopy']`) is not part of the source tree here; the engine
below is modelled from the specification: data model (§3), archive store
(§4.2), document pipeline (§4.3), restore pipeline (§4.4), client adapter
(§4.1), manifest atomic commit (§9), and error taxonomy (§7).
-/

/-- Modelled from the spec: a content digest used to deduplicate attachment
storage (§3, glossary).  The digest is modelled as a perfect (collision
free) content key: the content itself; hash collisions are out of scope. -/
abbrev Digest : Type := List Nat

/-- Modelled from the spec: the digest of an attachment's bytes. -/
def digestOf (bytes : List Nat) : Digest := bytes

/-- Modelled from the spec (§3): an attachment as fetched from the source
database — name, content type and the streamed bytes. -/
structure Attachment where
  name : String
  contentType : String
  bytes : List Nat

/-- Modelled from the spec (§3 AttachmentRef): name, content type, content
length, content digest. -/
structure AttachmentRef where
  name : String
  contentType : String
  contentLength : Nat
  digest : Digest

/-- The AttachmentRef recorded for a fetched attachment. -/
def Attachment.ref (att : Attachment) : AttachmentRef :=
  { name := att.name, contentType := att.contentType,
    contentLength := att.bytes.length, digest := digestOf att.bytes }

/-- Modelled from the spec (§3 DocumentRecord): document id, revision id,
deletion flag, JSON body (kept opaque), ordered list of AttachmentRefs.
Immutable once persisted. -/
structure DocumentRecord where
  docId : String
  revId : String
  deleted : Bool
  body : String
  atts : List AttachmentRef

/-- Modelled from the spec (§3 Manifest): format version, last completed
sequence token, record count, completion flag. -/
structure Manifest where
  formatVersion : Nat
  lastSeq : Nat
  recordCount : Nat
  complete : Bool

/-- Modelled from the spec (§4.2, §6): one database's archive — attachment
blob store keyed by content digest, document-record store, manifest. -/
structure Archive where
  blobs : List (Digest × List Nat)
  records : List DocumentRecord
  manifest : Manifest

/-- Whether the blob store already holds bytes for a digest. -/
def hasBlob (a : Archive) (d : Digest) : Bool :=
  a.blobs.any (fun p => p.1 = d)

/-- Read the stored bytes for a digest from the blob store. -/
def lookupBlob (a : Archive) (d : Digest) : Option (List Nat) :=
  (a.blobs.find? (fun p => p.1 = d)).map (fun p => p.2)

/-- Modelled from the spec: `writer.putAttachmentBytes(digest, stream)`
(§4.2) — attachment bytes are stored once per unique digest (§3);
re-putting an already present digest is a no-op. -/
def putAttachmentBytes (a : Archive) (d : Digest) (bytes : List Nat) :
    Archive :=
  if hasBlob a d then a
  else { a with blobs := a.blobs ++ [(d, bytes)] }

/-- Modelled from the spec: `writer.putDocumentRecord(record)` (§4.2) —
appends to the document-record store; a new revision is a new record,
never an in-place edit (§3). -/
def putDocumentRecord (a : Archive) (r : DocumentRecord) : Archive :=
  { a with records := a.records ++ [r] }

/-- Modelled from the spec: `writer.commitManifest(sequenceToken)` (§4.2) —
advances the resumable checkpoint to the committed token. -/
def commitManifest (a : Archive) (tok : Nat) : Archive :=
  { a with manifest :=
      { a.manifest with lastSeq := tok, recordCount := a.records.length } }

/-- A primitive write operation issued against the archive store by the
backup pipeline while writing a batch. -/
inductive WriteOp where
  | putAtt (d : Digest) (bytes : List Nat)
  | putRec (r : DocumentRecord)

/-- Apply one write operation to the archive. -/
def applyOp (a : Archive) : WriteOp → Archive
  | WriteOp.putAtt d bytes => putAttachmentBytes a d bytes
  | WriteOp.putRec r => putDocumentRecord a r

/-- Apply a sequence of write operations in order. -/
def applyOps (a : Archive) (ops : List WriteOp) : Archive :=
  ops.foldl applyOp a

/-- Modelled from the spec (§3, §4.3): one fetched leaf revision of a
document — the document pipeline fetches all live leaves, each becoming
its own record, together with its attachments' bytes. -/
structure LeafDoc where
  docId : String
  revId : String
  deleted : Bool
  body : String
  atts : List Attachment

/-- The DocumentRecord the archive stores for a fetched leaf. -/
def LeafDoc.record (d : LeafDoc) : DocumentRecord :=
  { docId := d.docId, revId := d.revId, deleted := d.deleted,
    body := d.body, atts := d.atts.map Attachment.ref }

/-- The attachment write operations for a list of fetched attachments. -/
def attOps (atts : List Attachment) : List WriteOp :=
  atts.map (fun att => WriteOp.putAtt (digestOf att.bytes) att.bytes)

/-- Modelled from the spec (§3 invariant, §4.3): the write operations the
backup pipeline issues for one fetched document — its attachments' bytes
first, then the document record that references them. -/
def docOps (d : LeafDoc) : List WriteOp :=
  attOps d.atts ++ [WriteOp.putRec d.record]

/-- The write operations for a whole batch of fetched documents. -/
def batchOps (ds : List LeafDoc) : List WriteOp :=
  (ds.map docOps).flatten

/-- Archive integrity scan (§8 Ordering): no stored document record
references a digest whose bytes are absent from the attachment store. -/
def archiveIntact (a : Archive) : Bool :=
  a.records.all (fun r => r.atts.all (fun ref => hasBlob a ref.digest))

theorem hasBlob_putAttachmentBytes_mono (a : Archive) (d d0 : Digest)
    (bytes : List Nat) (h : hasBlob a d0 = true) :
    hasBlob (putAttachmentBytes a d bytes) d0 = true := by
  unfold putAttachmentBytes
  split
  · exact h
  · simpa [hasBlob, List.any_append] using Or.inl (by simpa [hasBlob] using h)

theorem hasBlob_putAttachmentBytes_self (a : Archive) (d : Digest)
    (bytes : List Nat) :
    hasBlob (putAttachmentBytes a d bytes) d = true := by
  unfold putAttachmentBytes
  split
  · assumption
  · simp [hasBlob, List.any_append]

theorem hasBlob_applyOp_mono (a : Archive) (op : WriteOp) (d0 : Digest)
    (h : hasBlob a d0 = true) : hasBlob (applyOp a op) d0 = true := by
  cases op with
  | putAtt d bytes => exact hasBlob_putAttachmentBytes_mono a d d0 bytes h
  | putRec r => simpa [applyOp, putDocumentRecord, hasBlob] using h

theorem hasBlob_applyOps_mono (ops : List WriteOp) (a : Archive) (d0 : Digest)
    (h : hasBlob a d0 = true) : hasBlob (applyOps a ops) d0 = true := by
  induction ops generalizing a with
  | nil => exact h
  | cons op rest ih =>
    exact ih (applyOp a op) (hasBlob_applyOp_mono a op d0 h)

theorem archiveIntact_putAttachmentBytes (a : Archive) (d : Digest)
    (bytes : List Nat) (h : archiveIntact a = true) :
    archiveIntact (putAttachmentBytes a d bytes) = true := by
  simp only [archiveIntact, List.all_eq_true] at h ⊢
  intro r hr ref href
  have hrec : r ∈ a.records := by
    by_cases hd : hasBlob a d = true
    · simpa [putAttachmentBytes, hd] using hr
    · simpa [putAttachmentBytes, hd] using hr
  exact hasBlob_putAttachmentBytes_mono a d ref.digest bytes (h r hrec ref href)

theorem archiveIntact_putDocumentRecord (a : Archive) (r : DocumentRecord)
    (h : archiveIntact a = true)
    (hr : ∀ ref ∈ r.atts, hasBlob a ref.digest = true) :
    archiveIntact (putDocumentRecord a r) = true := by
  simp only [archiveIntact, List.all_eq_true] at h ⊢
  intro r0 hr0 ref href
  simp only [putDocumentRecord, List.mem_append, List.mem_singleton] at hr0
  have hblob : hasBlob a ref.digest = true := by
    rcases hr0 with hr0 | hr0
    · exact h r0 hr0 ref href
    · subst hr0; exact hr ref href
  simpa [putDocumentRecord, hasBlob] using hblob

/-- A sequence of write operations keeps the archive intact at every
intermediate state (every prefix). -/
def preservesIntact (ops : List WriteOp) : Prop :=
  ∀ a, archiveIntact a = true →
    ∀ k, archiveIntact (applyOps a (ops.take k)) = true

theorem preservesIntact_append (ops1 ops2 : List WriteOp)
    (h1 : preservesIntact ops1) (h2 : preservesIntact ops2) :
    preservesIntact (ops1 ++ ops2) := by
  intro a ha k
  rw [List.take_append_eq_append_take]
  unfold applyOps
  rw [List.foldl_append]
  exact h2 _ (h1 a ha k) _

theorem preservesIntact_attOps (atts : List Attachment) :
    preservesIntact (attOps atts) := by
  induction atts with
  | nil => intro a ha k; simpa [attOps, applyOps] using ha
  | cons att rest ih =>
    intro a ha k
    cases k with
    | zero => simpa [applyOps] using ha
    | succ k0 =>
      simp only [attOps, List.map_cons, List.take_succ_cons]
      have ha1 : archiveIntact
          (applyOp a (WriteOp.putAtt (digestOf att.bytes) att.bytes)) = true :=
        archiveIntact_putAttachmentBytes a _ _ ha
      simpa [applyOps] using ih _ ha1 k0

theorem hasBlob_after_attOps (atts : List Attachment) (a : Archive)
    (att : Attachment) (hmem : att ∈ atts) :
    hasBlob (applyOps a (attOps atts)) (digestOf att.bytes) = true := by
  induction atts generalizing a with
  | nil => cases hmem
  | cons att0 rest ih =>
    rcases List.mem_cons.mp hmem with h | h
    · subst h
      have hstep : hasBlob (applyOp a
          (WriteOp.putAtt (digestOf att.bytes) att.bytes))
          (digestOf att.bytes) = true :=
        hasBlob_putAttachmentBytes_self a _ _
      simpa [attOps, applyOps] using
        hasBlob_applyOps_mono (attOps rest) _ _ hstep
    · simpa [attOps, applyOps] using ih _ h

theorem preservesIntact_docOps (d : LeafDoc) : preservesIntact (docOps d) := by
  intro a ha k
  unfold docOps
  rw [List.take_append_eq_append_take]
  unfold applyOps
  rw [List.foldl_append]
  have hpre : archiveIntact (applyOps a ((attOps d.atts).take k)) = true :=
    preservesIntact_attOps d.atts a ha k
  cases hk : [WriteOp.putRec d.record].take (k - (attOps d.atts).length) with
  | nil => simpa [applyOps] using hpre
  | cons op rest =>
    have hop : op = WriteOp.putRec d.record ∧ rest = [] := by
      cases hn : k - (attOps d.atts).length with
      | zero => rw [hn] at hk; simp at hk
      | succ m =>
        rw [hn] at hk
        simp only [List.take_succ_cons, List.take_nil, List.cons.injEq] at hk
        exact ⟨hk.1.symm, hk.2.symm⟩
    obtain ⟨hop1, hop2⟩ := hop
    subst hop1; subst hop2
    have htake : (attOps d.atts).take k = attOps d.atts := by
      have hlen : (attOps d.atts).length ≤ k := by
        by_contra hlt
        push_neg at hlt
        have : k - (attOps d.atts).length = 0 := Nat.sub_eq_zero_of_le
          (Nat.le_of_lt hlt)
        rw [this] at hk; simp at hk
      exact List.take_of_length_le hlen
    rw [htake] at hpre ⊢
    have hblobs : ∀ ref ∈ d.record.atts,
        hasBlob (applyOps a (attOps d.atts)) ref.digest = true := by
      intro ref href
      simp only [LeafDoc.record, List.mem_map] at href
      obtain ⟨att, hmem, hre⟩ := href
      subst hre
      exact hasBlob_after_attOps d.atts a att hmem
    simpa [applyOps] using
      archiveIntact_putDocumentRecord _ d.record hpre hblobs

theorem preservesIntact_batchOps (ds : List LeafDoc) :
    preservesIntact (batchOps ds) := by
  induction ds with
  | nil => intro a ha k; simpa [batchOps, applyOps] using ha
  | cons d rest ih =>
    have : batchOps (d :: rest) = docOps d ++ batchOps rest := by
      simp [batchOps]
    rw [this]
    exact preservesIntact_append _ _ (preservesIntact_docOps d) ih

/-- **C2**. Every archive state reachable through the archive store's write
operations satisfies the integrity scan: starting from any intact archive,
after any prefix of the write operations a batch of fetched documents
issues (attachment bytes before the document record that references them),
no stored document record references a digest whose bytes are absent from
the attachment store. -/
theorem archive_ordering_invariant (a : Archive) (ds : List LeafDoc) (k : Nat)
    (h : archiveIntact a = true) :
    archiveIntact (applyOps a ((batchOps ds).take k)) = true :=
  preservesIntact_batchOps ds a h k

/-- The empty archive of one database, fresh from `openForWrite`. -/
def emptyArchive : Archive :=
  { blobs := [], records := [],
    manifest :=
      { formatVersion := 1, lastSeq := 0, recordCount := 0,
        complete := false } }

/-- A small fetched document with one attachment, for concrete runs. -/
def demoLeaf : LeafDoc :=
  { docId := "doc1", revId := "1-abc", deleted := false,
    body := "\x7b\"k\": 1\x7d",
    atts := [{ name := "a.bin", contentType := "application/octet-stream",
               bytes := [7, 7, 7] }] }

/-- Witness for C2: a concrete mid-batch archive state (after the
attachment write, before the record write) passes the integrity scan. -/
theorem archive_ordering_invariant_witness :
    archiveIntact (applyOps emptyArchive ((batchOps [demoLeaf]).take 1))
      = true :=
  archive_ordering_invariant emptyArchive [demoLeaf] 1 (by decide)

/-- Modelled from the spec (§4.3): committing one backup batch — write the
batch's attachments and document records, then commit the manifest with
the batch's final sequence token. -/
def processBatch (a : Archive) (batch : List LeafDoc) (tok : Nat) : Archive :=
  commitManifest (applyOps a (batchOps batch)) tok

/-- Modelled from the spec (§3 Checkpoint, §4.3): one step of the backup
driver over the paginated change feed — a page whose final token is
already covered by the committed checkpoint is skipped; otherwise it is
processed and committed. -/
def advanceBackup (a : Archive) (bt : List LeafDoc × Nat) : Archive :=
  if bt.2 ≤ a.manifest.lastSeq then a else processBatch a bt.1 bt.2

/-- Modelled from the spec (§4.3): a backup pass over a list of change-feed
pages, each paired with its final sequence token, resuming from the
archive's committed checkpoint. -/
def runBackup (a : Archive) (batches : List (List LeafDoc × Nat)) : Archive :=
  batches.foldl advanceBackup a

/-- The documents the backup pass actually fetches from the source: those
of the pages it does not skip. -/
def fetchedDuring (a : Archive) : List (List LeafDoc × Nat) → List LeafDoc
  | [] => []
  | bt :: rest =>
      if bt.2 ≤ a.manifest.lastSeq then fetchedDuring a rest
      else bt.1 ++ fetchedDuring (processBatch a bt.1 bt.2) rest

theorem processBatch_lastSeq (a : Archive) (batch : List LeafDoc)
    (tok : Nat) : (processBatch a batch tok).manifest.lastSeq = tok := rfl

theorem chain_take {α : Type} (R : α → α → Prop) :
    ∀ (x : α) (l : List α) (m : Nat), List.Chain R x l →
      List.Chain R x (l.take m)
  | _, _, 0, _ => List.Chain.nil
  | _, [], _, h => by rw [List.take_nil]; exact h
  | x, y :: l, m + 1, h => by
      rcases List.chain_cons.mp h with ⟨hxy, hl⟩
      simpa using List.chain_cons.mpr ⟨hxy, chain_take R y l m hl⟩

theorem lastSeq_le_runBackup (batches : List (List LeafDoc × Nat))
    (a : Archive)
    (hchain : List.Chain (· < ·) a.manifest.lastSeq
      (batches.map Prod.snd)) :
    a.manifest.lastSeq ≤ (runBackup a batches).manifest.lastSeq := by
  induction batches generalizing a with
  | nil => exact Nat.le_refl _
  | cons b rest ih =>
    simp only [List.map_cons] at hchain
    rcases List.chain_cons.mp hchain with ⟨hlt, hrest⟩
    have hstep : advanceBackup a b = processBatch a b.1 b.2 := by
      simp [advanceBackup, Nat.not_le.mpr hlt]
    have hchain1 : List.Chain (· < ·)
        (processBatch a b.1 b.2).manifest.lastSeq (rest.map Prod.snd) :=
      hrest
    have := ih (processBatch a b.1 b.2) hchain1
    calc a.manifest.lastSeq
        ≤ (processBatch a b.1 b.2).manifest.lastSeq := Nat.le_of_lt hlt
      _ ≤ (runBackup (processBatch a b.1 b.2) rest).manifest.lastSeq := this
      _ = (runBackup a (b :: rest)).manifest.lastSeq := by
          simp [runBackup, hstep]

/-- **C4**. For a backup interrupted after the manifest commit of batch `n`
and before batch `n + 1` starts (archive state `runBackup a
(batches.take n)`), the restarted job skips the `n` committed batches
(re-offering them is a no-op, so it resumes at batch `n + 1`), and the
final archive it produces is identical to the archive the uninterrupted
run produces.  Sequence tokens strictly increase along the feed, starting
above the initial checkpoint. -/
theorem backup_resume_equiv (a : Archive)
    (batches : List (List LeafDoc × Nat)) (n : Nat)
    (hchain : List.Chain (· < ·) a.manifest.lastSeq
      (batches.map Prod.snd)) :
    runBackup (runBackup a (batches.take n)) (batches.take n)
        = runBackup a (batches.take n)
    ∧ runBackup (runBackup a (batches.take n)) batches
        = runBackup a batches := by
  induction batches generalizing a n with
  | nil => simp [runBackup]
  | cons b rest ih =>
    cases n with
    | zero => simp [runBackup]
    | succ m =>
      simp only [List.map_cons] at hchain
      rcases List.chain_cons.mp hchain with ⟨hlt, hrest⟩
      have hstep : advanceBackup a b = processBatch a b.1 b.2 := by
        simp [advanceBackup, Nat.not_le.mpr hlt]
      have hchain1 : List.Chain (· < ·)
          (processBatch a b.1 b.2).manifest.lastSeq (rest.map Prod.snd) := by
        simpa [processBatch_lastSeq] using hrest
      obtain ⟨ih1, ih2⟩ := ih (processBatch a b.1 b.2) m hchain1
      have htakechain : List.Chain (· < ·)
          (processBatch a b.1 b.2).manifest.lastSeq
          ((rest.take m).map Prod.snd) := by
        rw [List.map_take]
        exact chain_take _ _ _ m hchain1
      have hle : b.2 ≤ (runBackup (processBatch a b.1 b.2)
          (rest.take m)).manifest.lastSeq := by
        have := lastSeq_le_runBackup (rest.take m)
          (processBatch a b.1 b.2) htakechain
        simpa [processBatch_lastSeq] using this
      have hskip : advanceBackup
          (runBackup (processBatch a b.1 b.2) (rest.take m)) b
          = runBackup (processBatch a b.1 b.2) (rest.take m) := by
        simp [advanceBackup, hle]
      constructor
      · show runBackup (runBackup a (b :: rest.take m)) (b :: rest.take m)
            = runBackup a (b :: rest.take m)
        have hA : runBackup a (b :: rest.take m)
            = runBackup (processBatch a b.1 b.2) (rest.take m) := by
          simp [runBackup, hstep]
        rw [hA]
        show runBackup (advanceBackup
            (runBackup (processBatch a b.1 b.2) (rest.take m)) b)
            (rest.take m)
            = runBackup (processBatch a b.1 b.2) (rest.take m)
        rw [hskip]
        exact ih1
      · show runBackup (runBackup a (b :: rest.take m)) (b :: rest)
            = runBackup a (b :: rest)
        have hA : runBackup a (b :: rest.take m)
            = runBackup (processBatch a b.1 b.2) (rest.take m) := by
          simp [runBackup, hstep]
        rw [hA]
        show runBackup (advanceBackup
            (runBackup (processBatch a b.1 b.2) (rest.take m)) b) rest
            = runBackup a (b :: rest)
        rw [hskip, ih2]
        simp [runBackup, hstep]

/-- A two-page change feed over the demo document, for concrete runs. -/
def demoBatches : List (List LeafDoc × Nat) :=
  [([demoLeaf], 3), ([], 5)]

/-- Witness for C4: with the concrete two-page feed, resuming after the
first committed batch re-does nothing and ends in the uninterrupted run's
archive. -/
theorem backup_resume_equiv_witness :
    runBackup (runBackup emptyArchive (demoBatches.take 1))
        (demoBatches.take 1)
      = runBackup emptyArchive (demoBatches.take 1)
    ∧ runBackup (runBackup emptyArchive (demoBatches.take 1)) demoBatches
      = runBackup emptyArchive demoBatches :=
  backup_resume_equiv emptyArchive demoBatches 1
    (by
      show List.Chain (· < ·) 0 [3, 5]
      exact List.Chain.cons (by decide)
        (List.Chain.cons (by decide) List.Chain.nil))

theorem fetchedDuring_all (batches : List (List LeafDoc × Nat)) (a : Archive)
    (hchain : List.Chain (· < ·) a.manifest.lastSeq
      (batches.map Prod.snd)) :
    fetchedDuring a batches = (batches.map Prod.fst).flatten := by
  induction batches generalizing a with
  | nil => rfl
  | cons b rest ih =>
    simp only [List.map_cons] at hchain
    rcases List.chain_cons.mp hchain with ⟨hlt, hrest⟩
    have hchain1 : List.Chain (· < ·)
        (processBatch a b.1 b.2).manifest.lastSeq (rest.map Prod.snd) :=
      hrest
    simp [fetchedDuring, Nat.not_le.mpr hlt, ih _ hchain1]

theorem fetchedDuring_resume (batches : List (List LeafDoc × Nat))
    (a : Archive) (n : Nat)
    (hchain : List.Chain (· < ·) a.manifest.lastSeq
      (batches.map Prod.snd)) :
    fetchedDuring (runBackup a (batches.take n)) batches
      = ((batches.drop n).map Prod.fst).flatten := by
  induction batches generalizing a n with
  | nil => simp [fetchedDuring, runBackup]
  | cons b rest ih =>
    cases n with
    | zero =>
      simpa [runBackup] using fetchedDuring_all (b :: rest) a hchain
    | succ m =>
      simp only [List.map_cons] at hchain
      rcases List.chain_cons.mp hchain with ⟨hlt, hrest⟩
      have hstep : advanceBackup a b = processBatch a b.1 b.2 := by
        simp [advanceBackup, Nat.not_le.mpr hlt]
      have hchain1 : List.Chain (· < ·)
          (processBatch a b.1 b.2).manifest.lastSeq (rest.map Prod.snd) :=
        hrest
      have htakechain : List.Chain (· < ·)
          (processBatch a b.1 b.2).manifest.lastSeq
          ((rest.take m).map Prod.snd) := by
        rw [List.map_take]
        exact chain_take _ _ _ m hchain1
      have hle : b.2 ≤ (runBackup (processBatch a b.1 b.2)
          (rest.take m)).manifest.lastSeq := by
        have := lastSeq_le_runBackup (rest.take m)
          (processBatch a b.1 b.2) htakechain
        simpa [processBatch_lastSeq] using this
      have hA : runBackup a ((b :: rest).take (m + 1))
          = runBackup (processBatch a b.1 b.2) (rest.take m) := by
        simp [runBackup, hstep]
      rw [hA]
      have hskipped : fetchedDuring
          (runBackup (processBatch a b.1 b.2) (rest.take m)) (b :: rest)
          = fetchedDuring
            (runBackup (processBatch a b.1 b.2) (rest.take m)) rest := by
        simp [fetchedDuring, hle]
      rw [hskipped, ih (processBatch a b.1 b.2) m hchain1]
      simp

/-- **C5**. `putAttachmentBytes` is idempotent: re-putting a digest whose
bytes are already in the attachment store leaves the archive unchanged.
And a backup resumed from the checkpoint committed after `n` batches
fetches exactly the documents of the remaining batches — no document of a
batch covered by the committed sequence token is fetched again. -/
theorem putAttachment_idem_no_refetch (a : Archive) (d : Digest)
    (bytes : List Nat) (c : Archive)
    (batches : List (List LeafDoc × Nat)) (n : Nat)
    (hblob : hasBlob a d = true)
    (hchain : List.Chain (· < ·) c.manifest.lastSeq
      (batches.map Prod.snd)) :
    putAttachmentBytes a d bytes = a
    ∧ fetchedDuring (runBackup c (batches.take n)) batches
        = ((batches.drop n).map Prod.fst).flatten := by
  constructor
  · simp [putAttachmentBytes, hblob]
  · exact fetchedDuring_resume batches c n hchain

/-- An archive already holding the demo attachment's bytes. -/
def demoBlobArchive : Archive :=
  putAttachmentBytes emptyArchive (digestOf [7, 7, 7]) [7, 7, 7]

/-- Witness for C5 at concrete inputs: re-putting the stored digest is a
no-op, and resuming after the first of the two demo batches fetches only
the second batch's documents (here: none). -/
theorem putAttachment_idem_no_refetch_witness :
    putAttachmentBytes demoBlobArchive (digestOf [7, 7, 7]) [7, 7, 7]
        = demoBlobArchive
    ∧ fetchedDuring (runBackup emptyArchive (demoBatches.take 1))
        demoBatches
      = ((demoBatches.drop 1).map Prod.fst).flatten :=
  putAttachment_idem_no_refetch demoBlobArchive (digestOf [7, 7, 7])
    [7, 7, 7] emptyArchive demoBatches 1 (by decide)
    (by
      show List.Chain (· < ·) 0 [3, 5]
      exact List.Chain.cons (by decide)
        (List.Chain.cons (by decide) List.Chain.nil))

/-- Modelled from the spec (§2, §3): the state of one source database — all
leaf revisions of all its documents (a document with several live leaf
revisions is in conflict, and every leaf is captured). -/
structure Database where
  docs : List LeafDoc

/-- Modelled from the spec (§4.3): a full backup of one database into a
fresh archive — the net effect of the document pipeline over the whole
change feed: for each fetched leaf, attachments then record. -/
def backupDatabase (db : Database) : Archive :=
  applyOps emptyArchive (batchOps db.docs)

/-- Modelled from the spec (§4.2 read side, §4.4): reconstruct the
attachments of one record by reading each referenced digest back from the
blob store; a missing blob aborts with `none`. -/
def restoreAtts (a : Archive) : List AttachmentRef → Option (List Attachment)
  | [] => some []
  | ref :: rest =>
      match lookupBlob a ref.digest with
      | none => none
      | some bytes =>
          match restoreAtts a rest with
          | none => none
          | some atts =>
              some ({ name := ref.name, contentType := ref.contentType,
                      bytes := bytes } :: atts)

/-- Modelled from the spec (§4.4): reconstruct one document (id, revision,
deletion flag, body, attachments) from an archived record. -/
def restoreRecord (a : Archive) (r : DocumentRecord) : Option LeafDoc :=
  match restoreAtts a r.atts with
  | none => none
  | some atts =>
      some { docId := r.docId, revId := r.revId, deleted := r.deleted,
             body := r.body, atts := atts }

/-- Restore every archived record in order, aborting on a corrupt
archive. -/
def restoreRecords (a : Archive) : List DocumentRecord →
    Option (List LeafDoc)
  | [] => some []
  | r :: rest =>
      match restoreRecord a r, restoreRecords a rest with
      | some d, some ds => some (d :: ds)
      | _, _ => none

/-- Modelled from the spec (§4.4): restoring a whole archive into an empty
target reconstructs the database state it captured. -/
def restoreDatabase (a : Archive) : Option Database :=
  (restoreRecords a a.records).map Database.mk

/-- Every stored blob is keyed by the digest of its own bytes. -/
def blobsConsistent (a : Archive) : Bool :=
  a.blobs.all (fun p => p.1 = digestOf p.2)

/-- A write operation is well formed when any attachment put is keyed by
the digest of the bytes it stores. -/
def opWF : WriteOp → Bool
  | WriteOp.putAtt d bytes => d = digestOf bytes
  | WriteOp.putRec _ => true

theorem applyOps_append (a : Archive) (ops1 ops2 : List WriteOp) :
    applyOps a (ops1 ++ ops2) = applyOps (applyOps a ops1) ops2 := by
  simp [applyOps, List.foldl_append]

theorem opWF_batchOps (ds : List LeafDoc) :
    (batchOps ds).all opWF = true := by
  induction ds with
  | nil => rfl
  | cons d rest ih =>
    have hd : (docOps d).all opWF = true := by
      rw [docOps, List.all_append, Bool.and_eq_true]
      refine ⟨?_, rfl⟩
      refine List.all_eq_true.mpr ?_
      intro op hop
      rw [attOps] at hop
      obtain ⟨att, _, hatt⟩ := List.mem_map.mp hop
      subst hatt
      simp [opWF]
    have hcons : batchOps (d :: rest) = docOps d ++ batchOps rest := by
      simp [batchOps]
    rw [hcons, List.all_append, Bool.and_eq_true]
    exact ⟨hd, ih⟩

theorem blobsConsistent_applyOps (ops : List WriteOp) (a : Archive)
    (hwf : ops.all opWF = true) (hcons : blobsConsistent a = true) :
    blobsConsistent (applyOps a ops) = true := by
  induction ops generalizing a with
  | nil => exact hcons
  | cons op rest ih =>
    rw [List.all_cons, Bool.and_eq_true] at hwf
    have hstep : blobsConsistent (applyOp a op) = true := by
      cases op with
      | putAtt d bytes =>
        have hd : d = digestOf bytes := by simpa [opWF] using hwf.1
        show blobsConsistent (putAttachmentBytes a d bytes) = true
        unfold putAttachmentBytes
        split
        · exact hcons
        · show ((a.blobs ++ [(d, bytes)]).all
              (fun p => p.1 = digestOf p.2)) = true
          rw [List.all_append, Bool.and_eq_true]
          exact ⟨hcons, by simp [hd]⟩
      | putRec r =>
        simpa [applyOp, putDocumentRecord, blobsConsistent] using hcons
    exact ih (applyOp a op) hwf.2 hstep

theorem hasBlob_after_docOps (d : LeafDoc) (a : Archive) (att : Attachment)
    (hmem : att ∈ d.atts) :
    hasBlob (applyOps a (docOps d)) (digestOf att.bytes) = true := by
  rw [docOps, applyOps_append]
  exact hasBlob_applyOps_mono _ _ _ (hasBlob_after_attOps d.atts a att hmem)

theorem hasBlob_after_batchOps (ds : List LeafDoc) (a : Archive)
    (d : LeafDoc) (att : Attachment) (hd : d ∈ ds) (hatt : att ∈ d.atts) :
    hasBlob (applyOps a (batchOps ds)) (digestOf att.bytes) = true := by
  induction ds generalizing a with
  | nil => cases hd
  | cons d0 rest ih =>
    have hcons : batchOps (d0 :: rest) = docOps d0 ++ batchOps rest := by
      simp [batchOps]
    rw [hcons, applyOps_append]
    rcases List.mem_cons.mp hd with h | h
    · subst h
      exact hasBlob_applyOps_mono _ _ _ (hasBlob_after_docOps d a att hatt)
    · exact ih _ h

/-- The document records a list of write operations stores. -/
def recsOf : List WriteOp → List DocumentRecord :=
  List.filterMap (fun op =>
    match op with
    | WriteOp.putRec r => some r
    | WriteOp.putAtt _ _ => none)

theorem records_applyOps (ops : List WriteOp) (a : Archive) :
    (applyOps a ops).records = a.records ++ recsOf ops := by
  induction ops generalizing a with
  | nil => simp [applyOps, recsOf]
  | cons op rest ih =>
    cases op with
    | putAtt d bytes =>
      have hrec : (putAttachmentBytes a d bytes).records = a.records := by
        unfold putAttachmentBytes; split <;> rfl
      have : applyOps a (WriteOp.putAtt d bytes :: rest)
          = applyOps (putAttachmentBytes a d bytes) rest := rfl
      rw [this, ih, hrec]
      simp [recsOf]
    | putRec r =>
      have : applyOps a (WriteOp.putRec r :: rest)
          = applyOps (putDocumentRecord a r) rest := rfl
      rw [this, ih]
      simp [putDocumentRecord, recsOf]

theorem recsOf_append (ops1 ops2 : List WriteOp) :
    recsOf (ops1 ++ ops2) = recsOf ops1 ++ recsOf ops2 := by
  simp [recsOf, List.filterMap_append]

theorem recsOf_attOps (atts : List Attachment) :
    recsOf (attOps atts) = [] := by
  induction atts with
  | nil => rfl
  | cons att rest ih =>
      show recsOf (attOps rest) = []
      exact ih

theorem recsOf_batchOps (ds : List LeafDoc) :
    recsOf (batchOps ds) = ds.map LeafDoc.record := by
  induction ds with
  | nil => rfl
  | cons d rest ih =>
    have hcons : batchOps (d :: rest) = docOps d ++ batchOps rest := by
      simp [batchOps]
    have hdoc : recsOf (docOps d) = [d.record] := by
      rw [docOps, recsOf_append, recsOf_attOps]
      rfl
    rw [hcons, recsOf_append, hdoc, ih]
    rfl

theorem lookupBlob_of_consistent (a : Archive) (bytes : List Nat)
    (hcons : blobsConsistent a = true)
    (hpres : hasBlob a (digestOf bytes) = true) :
    lookupBlob a (digestOf bytes) = some bytes := by
  unfold lookupBlob
  have hsome : (a.blobs.find?
      (fun p => p.1 = digestOf bytes)).isSome = true := by
    rw [List.find?_isSome]
    simpa [hasBlob, List.any_eq_true] using hpres
  obtain ⟨p, hp⟩ := Option.isSome_iff_exists.mp hsome
  have hkey : p.1 = digestOf bytes := by
    have := List.find?_some hp
    exact of_decide_eq_true this
  have hmem : p ∈ a.blobs := List.mem_of_find?_eq_some hp
  have hpc : p.1 = digestOf p.2 := by
    have := List.all_eq_true.mp hcons p hmem
    exact of_decide_eq_true this
  have hval : p.2 = bytes := by
    have h1 : digestOf p.2 = digestOf bytes := by rw [← hpc, hkey]
    simpa [digestOf] using h1
  rw [hp]
  simp [hval]

theorem restoreAtts_refs (a : Archive) (atts : List Attachment)
    (h : ∀ att ∈ atts, lookupBlob a (digestOf att.bytes) = some att.bytes) :
    restoreAtts a (atts.map Attachment.ref) = some atts := by
  induction atts with
  | nil => rfl
  | cons att rest ih =>
    have h1 : lookupBlob a (digestOf att.bytes) = some att.bytes :=
      h att (List.mem_cons_self _ _)
    have h2 := ih (fun att' h' => h att' (List.mem_cons_of_mem _ h'))
    simp only [List.map_cons, restoreAtts, Attachment.ref, h1, h2]

theorem restoreRecords_of_present (a : Archive) (ds : List LeafDoc)
    (hcons : blobsConsistent a = true)
    (hpres : ∀ d ∈ ds, ∀ att ∈ d.atts,
      hasBlob a (digestOf att.bytes) = true) :
    restoreRecords a (ds.map LeafDoc.record) = some ds := by
  induction ds with
  | nil => rfl
  | cons d rest ih =>
    have hatts : ∀ att ∈ d.atts,
        lookupBlob a (digestOf att.bytes) = some att.bytes :=
      fun att hm => lookupBlob_of_consistent a att.bytes hcons
        (hpres d (List.mem_cons_self _ _) att hm)
    have hrec : restoreRecord a d.record = some d := by
      unfold restoreRecord
      have : restoreAtts a d.record.atts = some d.atts := by
        show restoreAtts a (d.atts.map Attachment.ref) = some d.atts
        exact restoreAtts_refs a d.atts hatts
      rw [this]
      rfl
    have hrest := ih
      (fun d' h' att hm => hpres d' (List.mem_cons_of_mem _ h') att hm)
    simp only [List.map_cons, restoreRecords, hrec, hrest]

/-- **C1**. Round trip: backing up a database and restoring the archive
into an empty target reconstructs the source database exactly — in
particular, for every document id the set of leaf revisions and bodies is
equal to the source's, and every attachment's bytes and digest match the
source exactly. -/
theorem backup_restore_roundtrip (db : Database) :
    restoreDatabase (backupDatabase db) = some db := by
  have hcons : blobsConsistent (backupDatabase db) = true :=
    blobsConsistent_applyOps _ _ (opWF_batchOps db.docs) rfl
  have hpres : ∀ d ∈ db.docs, ∀ att ∈ d.atts,
      hasBlob (backupDatabase db) (digestOf att.bytes) = true :=
    fun d hd att hatt => hasBlob_after_batchOps db.docs emptyArchive d att
      hd hatt
  have hrecs : (backupDatabase db).records = db.docs.map LeafDoc.record := by
    show (applyOps emptyArchive (batchOps db.docs)).records = _
    rw [records_applyOps, recsOf_batchOps]
    rfl
  unfold restoreDatabase
  rw [hrecs, restoreRecords_of_present _ _ hcons hpres]
  rfl

/-- Modelled from the spec (§9, §3 Manifest): the on-disk state of one
database's manifest — the committed manifest file, and a temporary file
while a commit is in flight. -/
structure ManifestFS where
  manifestFile : Option (List Nat)
  tempFile : Option (List Nat)

/-- One micro-step of the write-temp-then-rename manifest commit; a crash
point is any prefix of the step sequence. -/
inductive CommitStep where
  | createTemp
  | writeChunk (b : Nat)
  | renameTemp
  deriving DecidableEq

/-- Modelled from the spec (§9): the effect of one micro-step — the rename
is the sole externally visible mutation of the manifest file. -/
def stepFS (fs : ManifestFS) : CommitStep → ManifestFS
  | CommitStep.createTemp => { fs with tempFile := some [] }
  | CommitStep.writeChunk b =>
      { fs with tempFile := fs.tempFile.map (fun c => c ++ [b]) }
  | CommitStep.renameTemp =>
      { manifestFile := fs.tempFile, tempFile := none }

/-- Run a prefix of commit micro-steps (everything up to a crash). -/
def runSteps (fs : ManifestFS) (steps : List CommitStep) : ManifestFS :=
  steps.foldl stepFS fs

/-- Modelled from the spec (§9): the step sequence of one manifest commit —
acquire a temp file, write the serialized manifest fully, then rename. -/
def commitSteps (content : List Nat) : List CommitStep :=
  CommitStep.createTemp :: content.map CommitStep.writeChunk
    ++ [CommitStep.renameTemp]

/-- What a reader of the manifest file observes. -/
def readManifest (fs : ManifestFS) : Option (List Nat) :=
  fs.manifestFile

theorem manifestFile_no_rename (steps : List CommitStep) (fs : ManifestFS)
    (h : ∀ s ∈ steps, s ≠ CommitStep.renameTemp) :
    (runSteps fs steps).manifestFile = fs.manifestFile := by
  induction steps generalizing fs with
  | nil => rfl
  | cons s rest ih =>
    have hs := h s (List.mem_cons_self _ _)
    have hstep : (stepFS fs s).manifestFile = fs.manifestFile := by
      cases s with
      | createTemp => rfl
      | writeChunk b => rfl
      | renameTemp => exact absurd rfl hs
    have := ih (stepFS fs s) (fun s' h' => h s' (List.mem_cons_of_mem _ h'))
    show (runSteps (stepFS fs s) rest).manifestFile = fs.manifestFile
    rw [this, hstep]

theorem tempFile_after_chunks (content : List Nat) (fs : ManifestFS)
    (c : List Nat) (h : fs.tempFile = some c) :
    (runSteps fs (content.map CommitStep.writeChunk)).tempFile
      = some (c ++ content) := by
  induction content generalizing fs c with
  | nil => simpa using h
  | cons b rest ih =>
    have hstep : (stepFS fs (CommitStep.writeChunk b)).tempFile
        = some (c ++ [b]) := by
      simp [stepFS, h]
    have := ih (stepFS fs (CommitStep.writeChunk b)) (c ++ [b]) hstep
    show (runSteps (stepFS fs (CommitStep.writeChunk b))
        (rest.map CommitStep.writeChunk)).tempFile = _
    rw [this]
    simp

/-- **C3**. The manifest commit is atomic: for every crash point `k` during
the write-temp-then-rename commit of new manifest `content`, a reader
either sees the previously committed manifest unchanged (every crash
point strictly before the final rename) or the complete new content
(once the rename has run) — never a partially written manifest; hence a
crash during the commit of an in-flight batch loses at most that batch:
the checkpoint read on restart is the old or the new manifest, nothing
in between. -/
theorem manifest_commit_atomic (fs : ManifestFS) (content : List Nat)
    (k : Nat) :
    (k < (commitSteps content).length →
      readManifest (runSteps fs ((commitSteps content).take k))
        = readManifest fs)
    ∧ ((commitSteps content).length ≤ k →
      readManifest (runSteps fs ((commitSteps content).take k))
        = some content)
    ∧ (readManifest (runSteps fs ((commitSteps content).take k))
          = readManifest fs
        ∨ readManifest (runSteps fs ((commitSteps content).take k))
          = some content) := by
  have hlen : (commitSteps content).length = content.length + 2 := by
    simp [commitSteps]
  have hsplit : commitSteps content
      = (CommitStep.createTemp :: content.map CommitStep.writeChunk)
        ++ [CommitStep.renameTemp] := by
    simp [commitSteps]
  have hbefore : k < (commitSteps content).length →
      readManifest (runSteps fs ((commitSteps content).take k))
        = readManifest fs := by
    intro hk
    have hk1 : k ≤ (CommitStep.createTemp ::
        content.map CommitStep.writeChunk).length := by
      simp only [List.length_cons, List.length_map]
      omega
    have htake : (commitSteps content).take k
        = (CommitStep.createTemp ::
            content.map CommitStep.writeChunk).take k := by
      rw [hsplit, List.take_append_of_le_length hk1]
    rw [htake]
    apply manifestFile_no_rename
    intro s hmem
    have hmem1 : s ∈ CommitStep.createTemp ::
        content.map CommitStep.writeChunk := List.take_subset _ _ hmem
    rcases List.mem_cons.mp hmem1 with h | h
    · subst h; intro hcontra; cases hcontra
    · obtain ⟨b, _, hb⟩ := List.mem_map.mp h
      subst hb; intro hcontra; cases hcontra
  have hafter : (commitSteps content).length ≤ k →
      readManifest (runSteps fs ((commitSteps content).take k))
        = some content := by
    intro hk
    have htake : (commitSteps content).take k = commitSteps content :=
      List.take_of_length_le hk
    rw [htake, hsplit]
    show readManifest (runSteps fs ((CommitStep.createTemp ::
        content.map CommitStep.writeChunk) ++ [CommitStep.renameTemp]))
      = some content
    have hrun : runSteps fs ((CommitStep.createTemp ::
        content.map CommitStep.writeChunk) ++ [CommitStep.renameTemp])
        = stepFS (runSteps fs (CommitStep.createTemp ::
            content.map CommitStep.writeChunk)) CommitStep.renameTemp := by
      simp [runSteps, List.foldl_append]
    rw [hrun]
    have htemp : (runSteps fs (CommitStep.createTemp ::
        content.map CommitStep.writeChunk)).tempFile = some content := by
      have hcreate : (stepFS fs CommitStep.createTemp).tempFile
          = some [] := rfl
      have := tempFile_after_chunks content
        (stepFS fs CommitStep.createTemp) [] hcreate
      simpa [runSteps] using this
    simp [stepFS, readManifest, htemp]
  refine ⟨hbefore, hafter, ?_⟩
  by_cases hk : k < (commitSteps content).length
  · exact Or.inl (hbefore hk)
  · exact Or.inr (hafter (Nat.le_of_not_lt hk))

/-- A manifest directory with a previously committed manifest. -/
def demoFS : ManifestFS :=
  { manifestFile := some [1, 2], tempFile := none }

/-- Witness for C3: during the commit of `[7, 8]` over a previously
committed manifest `[1, 2]`, a crash after two micro-steps still reads
`[1, 2]`, and after all four micro-steps reads `[7, 8]`. -/
theorem manifest_commit_atomic_witness :
    readManifest (runSteps demoFS ((commitSteps [7, 8]).take 2))
        = readManifest demoFS
    ∧ readManifest (runSteps demoFS ((commitSteps [7, 8]).take 4))
        = some [7, 8] :=
  ⟨(manifest_commit_atomic demoFS [7, 8] 2).1 (by decide),
   (manifest_commit_atomic demoFS [7, 8] 4).2.1 (by decide)⟩

/-- Modelled from the spec (§4.4, §6): one document of the live target
database — its current winning revision and body. -/
structure TargetDoc where
  docId : String
  revId : String
  body : String

/-- Modelled from the spec (§4.4): the live target database, at most one
current revision per document id. -/
structure TargetDB where
  docs : List TargetDoc

/-- The target's current revision for a document id (the revision refresh
read). -/
def currentRev (t : TargetDB) (id : String) : Option String :=
  (t.docs.find? (fun d => d.docId = id)).map (fun d => d.revId)

/-- Per-record outcome of a bulk write (§4.1). -/
inductive WriteOutcome where
  | okOutcome
  | conflict
  deriving DecidableEq

/-- Modelled from the spec (§4.1 bulkWrite, §4.4, §8 Conflict handling):
attempt to write an archived record with a base revision.  Inserting an
absent document succeeds; re-writing the revision the target already
holds is an accepted no-op (re-runs are safe); writing a document whose
target revision differs from the archived one is a `conflict`, and the
target's revision is never clobbered. -/
def writeWithBase (t : TargetDB) (r : DocumentRecord) (base : String) :
    TargetDB × WriteOutcome :=
  match t.docs.find? (fun d => d.docId = r.docId) with
  | none =>
      ({ docs := t.docs
          ++ [{ docId := r.docId, revId := r.revId, body := r.body }] },
       WriteOutcome.okOutcome)
  | some d =>
      if d.revId = base ∧ r.revId = base then (t, WriteOutcome.okOutcome)
      else (t, WriteOutcome.conflict)

/-- Terminal outcome of restoring one record: resulting target, number of
write attempts made, and whether an unresolved conflict was reported. -/
structure RecResult where
  target : TargetDB
  attempts : Nat
  unresolved : Bool

/-- Modelled from the spec (§4.4, §7 WriteConflict): write the record with
its archived revision as base; on conflict, refresh the document's
current revision from the target and retry exactly once with the
refreshed revision as the new base; a persistent conflict is reported as
unresolved for that document and the target's revision is left as is. -/
def restoreRecordWrite (t : TargetDB) (r : DocumentRecord) : RecResult :=
  match writeWithBase t r r.revId with
  | (t1, WriteOutcome.okOutcome) => ⟨t1, 1, false⟩
  | (_, WriteOutcome.conflict) =>
      match writeWithBase t r ((currentRev t r.docId).getD r.revId) with
      | (t1, WriteOutcome.okOutcome) => ⟨t1, 2, false⟩
      | (_, WriteOutcome.conflict) => ⟨t, 2, true⟩

/-- Aggregate result of restoring one batch of records. -/
structure BatchResult where
  target : TargetDB
  unresolvedIds : List String
  processedCount : Nat

/-- Modelled from the spec (§4.4, §7 Propagation): restore a batch of
records in order; unresolved conflicts are collected per record and never
abort the batch — every record reaches a terminal outcome. -/
def restoreBatch (t : TargetDB) : List DocumentRecord → BatchResult
  | [] => ⟨t, [], 0⟩
  | r :: rest =>
      let res := restoreRecordWrite t r
      let br := restoreBatch res.target rest
      { target := br.target,
        unresolvedIds :=
          (if res.unresolved then [r.docId] else []) ++ br.unresolvedIds,
        processedCount := br.processedCount + 1 }

/-- Modelled from the spec (§6, §7): a job's summary outcome. -/
inductive JobOutcome where
  | fullSuccess
  | partialSuccess
  deriving DecidableEq

/-- The outcome the restore job reports for a batch. -/
def restoreJobOutcome (br : BatchResult) : JobOutcome :=
  if br.unresolvedIds.isEmpty then JobOutcome.fullSuccess
  else JobOutcome.partialSuccess

/-- Modelled from the spec (§6): exit code 0 on full success, nonzero
otherwise. -/
def exitCodeOf : JobOutcome → Nat
  | JobOutcome.fullSuccess => 0
  | JobOutcome.partialSuccess => 1

theorem find?_append_singleton {α : Type} (p : α → Bool) (l : List α)
    (x : α) (hx : p x = false) : (l ++ [x]).find? p = l.find? p := by
  induction l with
  | nil => simp [List.find?, hx]
  | cons a l ih =>
    cases ha : p a <;> simp [List.find?, ha, ih]

theorem currentRev_writeWithBase (t : TargetDB) (r : DocumentRecord)
    (base : String) (id : String) (h : r.docId ≠ id) :
    currentRev (writeWithBase t r base).1 id = currentRev t id := by
  cases hf : t.docs.find? (fun d => d.docId = r.docId) with
  | none =>
    have hw : writeWithBase t r base
        = ({ docs := t.docs
            ++ [{ docId := r.docId, revId := r.revId, body := r.body }] },
           WriteOutcome.okOutcome) := by
      simp only [writeWithBase, hf]
    rw [hw]
    show currentRev { docs := t.docs
        ++ [{ docId := r.docId, revId := r.revId, body := r.body }] } id
      = currentRev t id
    unfold currentRev
    rw [find?_append_singleton]
    simp [h]
  | some d =>
    have hw : (writeWithBase t r base).1 = t := by
      simp only [writeWithBase, hf]
      split <;> rfl
    rw [hw]

theorem currentRev_restoreRecordWrite (t : TargetDB) (r : DocumentRecord)
    (id : String) (h : r.docId ≠ id) :
    currentRev (restoreRecordWrite t r).target id = currentRev t id := by
  unfold restoreRecordWrite
  cases h1 : writeWithBase t r r.revId with
  | mk t1 o1 =>
    cases o1 with
    | okOutcome =>
      show currentRev t1 id = currentRev t id
      have := currentRev_writeWithBase t r r.revId id h
      rw [h1] at this
      exact this
    | conflict =>
      cases h2 : writeWithBase t r ((currentRev t r.docId).getD r.revId) with
      | mk t2 o2 =>
        cases o2 with
        | okOutcome =>
          show currentRev t2 id = currentRev t id
          have := currentRev_writeWithBase t r
            ((currentRev t r.docId).getD r.revId) id h
          rw [h2] at this
          exact this
        | conflict => rfl

theorem currentRev_restoreBatch (rs : List DocumentRecord) (t : TargetDB)
    (id : String) (h : ∀ r ∈ rs, r.docId ≠ id) :
    currentRev (restoreBatch t rs).target id = currentRev t id := by
  induction rs generalizing t with
  | nil => rfl
  | cons r rest ih =>
    have h1 := h r (List.mem_cons_self _ _)
    have hstep := currentRev_restoreRecordWrite t r id h1
    have := ih (restoreRecordWrite t r).target
      (fun r' h' => h r' (List.mem_cons_of_mem _ h'))
    show currentRev (restoreBatch (restoreRecordWrite t r).target
        rest).target id = currentRev t id
    rw [this, hstep]

theorem restoreBatch_processedCount (rs : List DocumentRecord)
    (t : TargetDB) : (restoreBatch t rs).processedCount = rs.length := by
  induction rs generalizing t with
  | nil => rfl
  | cons r rest ih =>
    show (restoreBatch (restoreRecordWrite t r).target
        rest).processedCount + 1 = rest.length + 1
    rw [ih]

theorem restoreRecordWrite_conflict (t : TargetDB) (r : DocumentRecord)
    (r2 : String) (hcur : currentRev t r.docId = some r2)
    (hne : r2 ≠ r.revId) :
    restoreRecordWrite t r = ⟨t, 2, true⟩ := by
  obtain ⟨d, hd, hrev⟩ := Option.map_eq_some'.mp hcur
  have h1 : writeWithBase t r r.revId = (t, WriteOutcome.conflict) := by
    simp only [writeWithBase, hd]
    have hno : ¬ d.revId = r.revId := by
      intro hcon
      apply hne
      rw [← hrev]
      exact hcon
    simp [hno]
  have h2 : writeWithBase t r ((currentRev t r.docId).getD r.revId)
      = (t, WriteOutcome.conflict) := by
    simp only [writeWithBase, hd, hcur]
    have hno : ¬ (d.revId = r2 ∧ r.revId = r2) := by
      intro hcon
      exact hne hcon.2.symm
    simp [hno]
  unfold restoreRecordWrite
  rw [h1, h2]

/-- **C6**. When the target already holds document `r.docId` at revision
`r2` different from the archived revision `r.revId`, the restore of that
record makes exactly two write attempts (the conflict is retried exactly
once, with the target's refreshed current revision as the new base), the
document is reported as an unresolved conflict, the target's revision is
not overwritten, the surrounding batch is not aborted (every record is
processed), and the job's outcome and exit code signal partial
success. -/
theorem restore_conflict_handling (t : TargetDB) (r : DocumentRecord)
    (rest : List DocumentRecord) (r2 : String)
    (hcur : currentRev t r.docId = some r2)
    (hne : r2 ≠ r.revId)
    (hrest : ∀ r' ∈ rest, r'.docId ≠ r.docId) :
    restoreRecordWrite t r = ⟨t, 2, true⟩
    ∧ (restoreBatch t (r :: rest)).processedCount = rest.length + 1
    ∧ r.docId ∈ (restoreBatch t (r :: rest)).unresolvedIds
    ∧ currentRev (restoreBatch t (r :: rest)).target r.docId = some r2
    ∧ restoreJobOutcome (restoreBatch t (r :: rest))
        = JobOutcome.partialSuccess
    ∧ exitCodeOf (restoreJobOutcome (restoreBatch t (r :: rest))) ≠ 0 := by
  have hconf := restoreRecordWrite_conflict t r r2 hcur hne
  have hbatch : restoreBatch t (r :: rest)
      = { target := (restoreBatch t rest).target,
          unresolvedIds := r.docId :: (restoreBatch t rest).unresolvedIds,
          processedCount := (restoreBatch t rest).processedCount + 1 } := by
    simp [restoreBatch, hconf]
  refine ⟨hconf, ?_, ?_, ?_, ?_, ?_⟩
  · rw [hbatch]
    show (restoreBatch t rest).processedCount + 1 = rest.length + 1
    rw [restoreBatch_processedCount]
  · rw [hbatch]
    exact List.mem_cons_self _ _
  · rw [hbatch]
    show currentRev (restoreBatch t rest).target r.docId = some r2
    rw [currentRev_restoreBatch rest t r.docId hrest]
    exact hcur
  · rw [hbatch]
    rfl
  · rw [hbatch]
    intro hcon
    exact absurd hcon (by simp [restoreJobOutcome, exitCodeOf])

/-- A target already holding the demo document at a different revision. -/
def demoTarget : TargetDB :=
  { docs := [{ docId := "doc1", revId := "2-xyz", body := "b2" }] }

/-- The archived record of the demo document at its source revision. -/
def demoRecord : DocumentRecord :=
  { docId := "doc1", revId := "1-abc", deleted := false, body := "b1",
    atts := [] }

/-- Witness for C6 at a concrete conflicting restore: two attempts, an
unresolved report, the target revision preserved and a partial-success
outcome. -/
theorem restore_conflict_handling_witness :
    restoreRecordWrite demoTarget demoRecord = ⟨demoTarget, 2, true⟩
    ∧ (restoreBatch demoTarget [demoRecord]).processedCount = 0 + 1
    ∧ demoRecord.docId
        ∈ (restoreBatch demoTarget [demoRecord]).unresolvedIds
    ∧ currentRev (restoreBatch demoTarget [demoRecord]).target
        demoRecord.docId = some "2-xyz"
    ∧ restoreJobOutcome (restoreBatch demoTarget [demoRecord])
        = JobOutcome.partialSuccess
    ∧ exitCodeOf (restoreJobOutcome (restoreBatch demoTarget [demoRecord]))
        ≠ 0 := by
  have h := restore_conflict_handling demoTarget demoRecord [] "2-xyz"
    (by decide) (by decide) (by intro r' h'; cases h')
  simpa using h

/-- Modelled from the spec (§4.1, §7): the response one attempt of a unit
of work observes from the remote database server. -/
inductive Response where
  | netError
  | status (code : Nat)
  deriving DecidableEq

/-- A transient failure (`TransientNetworkError`): a network error or a
5xx status; retried with backoff. -/
def transient : Response → Bool
  | Response.netError => true
  | Response.status code => 500 ≤ code

/-- A successful response (any non-error status). -/
def isSuccess : Response → Bool
  | Response.status code => code < 400
  | Response.netError => false

/-- The terminal outcome of one unit of work: attempts made and, for
retried units, the backoff delays waited. -/
inductive UnitOutcome where
  | succeeded (attemptsUsed : Nat) (delays : List Nat)
  | conflictHit (attemptsUsed : Nat)
  | fatalItem (attemptsUsed : Nat) (delays : List Nat)
  deriving DecidableEq

/-- Exponential backoff: the delay (in base-delay units) waited after
failed attempt `i` before attempt `i + 1`. -/
def attemptDelay (i : Nat) : Nat := 2 ^ i

/-- Modelled from the spec (§4.1, §7): execute one unit of work against an
oracle of per-attempt responses under a bounded attempt budget.  A
transient failure is retried after an exponential backoff delay until the
budget is exhausted, then escalated to a fatal error for that unit only
(`FatalItemError`); a 409 write conflict is classified distinctly; any
other 4xx is fatal for the item at once and never retried. -/
def runUnitFrom (oracle : Nat → Response) :
    Nat → Nat → List Nat → UnitOutcome
  | 0, attempt, delays => UnitOutcome.fatalItem attempt delays.reverse
  | remaining + 1, attempt, delays =>
      if isSuccess (oracle attempt) then
        UnitOutcome.succeeded (attempt + 1) delays.reverse
      else if oracle attempt = Response.status 409 then
        UnitOutcome.conflictHit (attempt + 1)
      else if transient (oracle attempt) then
        (if remaining = 0 then
          UnitOutcome.fatalItem (attempt + 1) delays.reverse
         else
          runUnitFrom oracle remaining (attempt + 1)
            (attemptDelay attempt :: delays))
      else UnitOutcome.fatalItem (attempt + 1) delays.reverse

/-- Execute one unit of work with the configured attempt bound. -/
def runUnit (maxAttempts : Nat) (oracle : Nat → Response) : UnitOutcome :=
  runUnitFrom oracle maxAttempts 0 []

/-- The number of attempts a unit's terminal outcome consumed. -/
def attemptsOf : UnitOutcome → Nat
  | UnitOutcome.succeeded n _ => n
  | UnitOutcome.conflictHit n => n
  | UnitOutcome.fatalItem n _ => n

/-- Modelled from the spec (§7 Propagation): per-item outcomes over a
batch are collected one per unit; a failing unit never aborts the
surrounding batch. -/
def processUnits (maxAttempts : Nat) (units : List (Nat → Response)) :
    List UnitOutcome :=
  units.map (runUnit maxAttempts)

/-- The backoff delays of `n` consecutive retries starting after failed
attempt `attempt`. -/
def backoffDelays (attempt : Nat) : Nat → List Nat
  | 0 => []
  | m + 1 => attemptDelay attempt :: backoffDelays (attempt + 1) m

theorem attemptsOf_runUnitFrom (oracle : Nat → Response) :
    ∀ (fuel attempt : Nat) (delays : List Nat),
      attemptsOf (runUnitFrom oracle fuel attempt delays) ≤ attempt + fuel
  | 0, attempt, delays => by simp [runUnitFrom, attemptsOf]
  | fuel + 1, attempt, delays => by
      rw [runUnitFrom]
      cases hs : isSuccess (oracle attempt) with
      | true =>
        rw [if_pos rfl]
        show attempt + 1 ≤ attempt + (fuel + 1)
        omega
      | false =>
        rw [if_neg Bool.false_ne_true]
        by_cases hc : oracle attempt = Response.status 409
        · rw [if_pos hc]
          show attempt + 1 ≤ attempt + (fuel + 1)
          omega
        · rw [if_neg hc]
          cases ht : transient (oracle attempt) with
          | false =>
            rw [if_neg Bool.false_ne_true]
            show attempt + 1 ≤ attempt + (fuel + 1)
            omega
          | true =>
            rw [if_pos rfl]
            by_cases hf : fuel = 0
            · subst hf
              rw [if_pos rfl]
              show attempt + 1 ≤ attempt + (0 + 1)
              omega
            · rw [if_neg hf]
              have := attemptsOf_runUnitFrom oracle fuel (attempt + 1)
                (attemptDelay attempt :: delays)
              omega

theorem runUnitFrom_all_transient (oracle : Nat → Response)
    (h : ∀ i, transient (oracle i) = true) :
    ∀ (fuel attempt : Nat) (delays : List Nat), 1 ≤ fuel →
      runUnitFrom oracle fuel attempt delays
        = UnitOutcome.fatalItem (attempt + fuel)
            (delays.reverse ++ backoffDelays attempt (fuel - 1)) := by
  intro fuel
  induction fuel with
  | zero => intro attempt delays hcon; cases hcon
  | succ m ih =>
    intro attempt delays _
    have ht := h attempt
    have hs : isSuccess (oracle attempt) = false := by
      cases ho : oracle attempt with
      | netError => rfl
      | status code =>
        rw [ho] at ht
        have h5 : 500 ≤ code := by simpa [transient] using ht
        simp only [isSuccess, decide_eq_false_iff_not]
        omega
    have hc : ¬ oracle attempt = Response.status 409 := by
      intro hcon
      rw [hcon] at ht
      simp [transient] at ht
    rw [runUnitFrom, if_neg (by simp [hs]), if_neg hc, if_pos ht]
    cases m with
    | zero =>
      rw [if_pos rfl]
      simp [backoffDelays]
    | succ m0 =>
      rw [if_neg (fun hcon => Nat.succ_ne_zero m0 hcon),
        ih (attempt + 1) (attemptDelay attempt :: delays)
          (Nat.le_add_left 1 m0)]
      congr 1
      · omega
      · rw [List.reverse_cons, List.append_assoc]
        rfl

theorem backoffDelays_range (n : Nat) :
    ∀ a, backoffDelays a n = (List.range n).map (fun i => 2 ^ (a + i)) := by
  induction n with
  | zero => intro a; rfl
  | succ m ih =>
    intro a
    rw [List.range_succ_eq_map]
    simp only [backoffDelays, attemptDelay, List.map_cons, Nat.add_zero,
      List.map_map, ih (a + 1)]
    refine congrArg _ ?_
    refine List.map_congr_left ?_
    intro i _
    simp only [Function.comp]
    refine congrArg _ ?_
    omega

/-- **C7**. The adapter's failure policy: for every unit of work the
attempt count is bounded by the configured budget; a unit whose every
attempt fails transiently (network error or 5xx) is retried with
exponential backoff (delays 2^0, 2^1, ...) and only after the full budget
escalated to a fatal error for that unit; a non-conflict 4xx response is
fatal for the item on the first attempt and never retried; and per-item
failures never abort the surrounding batch — every unit of the batch gets
its own terminal outcome. -/
theorem adapter_failure_policy (maxA : Nat) (o1 o2 o3 : Nat → Response)
    (c : Nat) (units : List (Nat → Response))
    (hmax : 1 ≤ maxA)
    (h1 : ∀ i, transient (o1 i) = true)
    (h2 : o2 0 = Response.status c)
    (hc4 : 400 ≤ c) (hc5 : c < 500) (hc9 : c ≠ 409) :
    attemptsOf (runUnit maxA o3) ≤ maxA
    ∧ runUnit maxA o1
        = UnitOutcome.fatalItem maxA
            ((List.range (maxA - 1)).map (fun i => 2 ^ i))
    ∧ runUnit maxA o2 = UnitOutcome.fatalItem 1 []
    ∧ (processUnits maxA units).length = units.length := by
  refine ⟨?_, ?_, ?_, ?_⟩
  · have := attemptsOf_runUnitFrom o3 maxA 0 []
    simpa [runUnit] using this
  · have := runUnitFrom_all_transient o1 h1 maxA 0 [] hmax
    rw [runUnit, this]
    have hr := backoffDelays_range (maxA - 1) 0
    simp only [Nat.zero_add] at hr
    simp [hr]
  · cases maxA with
    | zero => cases hmax
    | succ m =>
      have hs : isSuccess (o2 0) = false := by
        rw [h2]
        simp only [isSuccess, decide_eq_false_iff_not]
        omega
      have hc : ¬ o2 0 = Response.status 409 := by
        rw [h2]
        intro hcon
        injection hcon with hcode
        exact hc9 hcode
      have ht : transient (o2 0) = false := by
        rw [h2]
        simp only [transient, decide_eq_false_iff_not]
        omega
      rw [runUnit, runUnitFrom, if_neg (by simp [hs]), if_neg hc,
        if_neg (by simp [ht])]
      rfl
  · simp [processUnits]

/-- An oracle whose every attempt fails with a network error. -/
def alwaysNetError : Nat → Response := fun _ => Response.netError

/-- An oracle answering 404 Not Found to every attempt. -/
def always404 : Nat → Response := fun _ => Response.status 404

/-- An oracle answering 200 OK to every attempt. -/
def always200 : Nat → Response := fun _ => Response.status 200

/-- A two-unit batch whose units both fail. -/
def demoUnits : List (Nat → Response) := [alwaysNetError, always404]

/-- Witness for C7 at concrete inputs: budget 3, an always-failing network,
a 404 response, a succeeding unit and a two-unit batch. -/
theorem adapter_failure_policy_witness :
    attemptsOf (runUnit 3 always200) ≤ 3
    ∧ runUnit 3 alwaysNetError
        = UnitOutcome.fatalItem 3
            ((List.range (3 - 1)).map (fun i => 2 ^ i))
    ∧ runUnit 3 always404 = UnitOutcome.fatalItem 1 []
    ∧ (processUnits 3 demoUnits).length = demoUnits.length :=
  adapter_failure_policy 3 alwaysNetError always404 always200 404 demoUnits
    (by decide) (fun i => rfl) rfl (by decide) (by decide) (by decide)

/-- Modelled from the spec (§6): the archive manifest/record format version
this program reads and writes. -/
def supportedArchiveVersion : Nat := 1

/-- Modelled from the spec (§7): the fatal error a restore raises for an
incompatible archive, naming the found and the supported version. -/
inductive RestoreError where
  | versionMismatch (found : Nat) (supported : Nat)
  deriving DecidableEq

/-- Modelled from the spec (§6, §7 ArchiveVersionMismatch): a restore job
over one archive — it first checks the manifest's format version; on a
mismatch it rejects the archive with a clear error and aborts the job at
once, before any write reaches the target; otherwise it restores the
archived records into the target and reports unresolved conflicts. -/
def restoreJob (a : Archive) (t : TargetDB) :
    TargetDB × Option RestoreError × List String :=
  if a.manifest.formatVersion ≠ supportedArchiveVersion then
    (t, some (RestoreError.versionMismatch a.manifest.formatVersion
        supportedArchiveVersion), [])
  else
    ((restoreBatch t a.records).target, none,
      (restoreBatch t a.records).unresolvedIds)

/-- **C8**. For every archive whose manifest format version differs from
the supported one, the restore job detects the mismatch, rejects the
archive with a clear `versionMismatch` error naming the found and
supported versions, aborts immediately (no record is processed, no
conflict list is produced), and returns the target database exactly as it
was — nothing is written. -/
theorem restore_version_mismatch_rejected (a : Archive) (t : TargetDB)
    (h : a.manifest.formatVersion ≠ supportedArchiveVersion) :
    restoreJob a t
      = (t, some (RestoreError.versionMismatch a.manifest.formatVersion
          supportedArchiveVersion), []) := by
  simp [restoreJob, h]

/-- An archive written by a newer, incompatible format version. -/
def demoOldArchive : Archive :=
  { blobs := [], records := [demoRecord],
    manifest :=
      { formatVersion := 2, lastSeq := 3, recordCount := 1,
        complete := true } }

/-- Witness for C8: restoring a version-2 archive into the demo target is
rejected with the mismatch error and leaves the target untouched. -/
theorem restore_version_mismatch_rejected_witness :
    restoreJob demoOldArchive demoTarget
      = (demoTarget, some (RestoreError.versionMismatch 2 1), []) :=
  restore_version_mismatch_rejected demoOldArchive demoTarget (by decide)

end Couchcopy
